import Mathlib

/-!
Verification of the Cache-Go repository: shallow embedding of the local
stores (single-list LRU and sharded LRU-2), the consistent-hash ring and
the single-flight group, with theorems settling the frozen claims.

Machine integers: Go int32 / uint16 arithmetic is modelled on Nat with
explicit wrap (% 2^32) where overflow matters; bit patterns (not signed
values) are what Go's & uses, so hashes are carried as their 32-bit bit
pattern.  Go maps are modelled as association lists with replace-on-insert
and delete-all semantics, so keys stay unique.  Time is an explicit Int
parameter (nanosecond timestamps); the stores never read a clock in the
model, each operation receives the observation instant.
-/

/-- A stored value: Go's Value interface exposes only Len(); values are
identified by vid so that round-trip claims can compare them. -/
structure GoValue where
  vid : Nat
  len : Nat
deriving DecidableEq, Repr

instance : Inhabited GoValue := ⟨⟨0, 0⟩⟩

/-- Byte size charged for an entry: len(key) + value.Len() as in the Go code. -/
def entrySize (k : String) (v : GoValue) : Int :=
  (k.utf8ByteSize : Int) + (v.len : Int)

/-- Association-list lookup, first match (Go map read). -/
def mapLookup {β : Type} : List (String × β) → String → Option β
  | [], _ => none
  | p :: t, k => if p.1 = k then some p.2 else mapLookup t k

/-- Association-list delete (Go map delete removes the key). -/
def mapDelete {β : Type} (l : List (String × β)) (k : String) : List (String × β) :=
  l.filter (fun p => p.1 ≠ k)

/-- Association-list write (Go map assignment replaces the key's value). -/
def mapSet {β : Type} (l : List (String × β)) (k : String) (v : β) : List (String × β) :=
  (k, v) :: mapDelete l k

/-- Integer-keyed association-list lookup (hash ring position map). -/
def imapLookup {β : Type} : List (Int × β) → Int → Option β
  | [], _ => none
  | p :: t, k => if p.1 = k then some p.2 else imapLookup t k

/-- Integer-keyed association-list delete. -/
def imapDelete {β : Type} (l : List (Int × β)) (k : Int) : List (Int × β) :=
  l.filter (fun p => p.1 ≠ k)

/-! ## The single-list LRU store (store/lru.go, lruCache) -/

/-- One lruEntry of the doubly linked list: (key, value). -/
structure LruEntry where
  key : String
  value : GoValue
deriving DecidableEq, Repr

/-- lruCache state.  list is front (least recent) to back (most recent);
items is implicit (a key is resident iff it appears in list); expires maps
keys to absolute expiry instants.  tickerPresent / closeChClosed model the
cleanup ticker pointer and the closed state of closeCh. -/
structure lruCache where
  list : List LruEntry
  expires : List (String × Int)
  maxBytes : Int
  usedBytes : Int
  tickerPresent : Bool
  closeChClosed : Bool
deriving DecidableEq, Repr

/-- newLRUCache: empty store with a running cleanup ticker. -/
def newLRUCache (maxBytes : Int) : lruCache :=
  { list := [], expires := [], maxBytes := maxBytes, usedBytes := 0,
    tickerPresent := true, closeChClosed := false }

/-- items-map lookup: first entry of the list carrying the key. -/
def listFind : List LruEntry → String → Option LruEntry
  | [], _ => none
  | e :: t, k => if e.key = k then some e else listFind t k

/-- Remove the first entry with the given key (list.Remove of the mapped element). -/
def removeFirstEntry : List LruEntry → String → List LruEntry
  | [], _ => []
  | e :: t, k => if e.key = k then t else e :: removeFirstEntry t k

/-- Replace the value of the first entry with the given key (oldEntry.value = value). -/
def updateValue : List LruEntry → String → GoValue → List LruEntry
  | [], _, _ => []
  | e :: t, k, v => if e.key = k then { e with value := v } :: t else e :: updateValue t k v

/-- list.MoveToBack of the element mapped by the key. -/
def moveToBack (l : List LruEntry) (k : String) : List LruEntry :=
  match listFind l k with
  | none => l
  | some e => removeFirstEntry l k ++ [e]

/-- Total byte size of the live entries, the quantity usedBytes tracks. -/
def listBytes (l : List LruEntry) : Int :=
  (l.map (fun e => entrySize e.key e.value)).sum

/-- removeElement: unlink the entry, drop its expiry, refund its bytes. -/
def lruRemoveElement (c : lruCache) (e : LruEntry) : lruCache :=
  { c with list := removeFirstEntry c.list e.key,
           expires := mapDelete c.expires e.key,
           usedBytes := c.usedBytes - entrySize e.key e.value }

/-- Delete: remove if resident (no expiry check in the code), report residency. -/
def lruDelete (c : lruCache) (key : String) : Bool × lruCache :=
  match listFind c.list key with
  | some e => (true, lruRemoveElement c e)
  | none => (false, c)

/-- First phase of evict: drop every entry whose expiry is past now.
The Go code ranges over the expires map; iteration order does not matter
because each removal only erases the visited key, so the snapshot list
order stands in for Go's arbitrary map order. -/
def evictExpired (c : lruCache) (now : Int) : lruCache :=
  c.expires.foldl
    (fun acc p =>
      if now > p.2 then
        match listFind acc.list p.1 with
        | some e => lruRemoveElement acc e
        | none => acc
      else acc) c

/-- Second phase of evict: while over budget, remove the front (LRU) entry.
Fuel bounds the loop; the Go loop removes one element per iteration so the
initial list length is enough fuel. -/
def evictOverBudget : Nat → lruCache → lruCache
  | 0, c => c
  | fuel + 1, c =>
    if c.maxBytes > 0 ∧ c.usedBytes > c.maxBytes ∧ c.list ≠ [] then
      match c.list with
      | [] => c
      | e :: _ => evictOverBudget fuel (lruRemoveElement c e)
    else c

/-- evict: expired entries first, then the byte-budget loop. -/
def lruEvict (c : lruCache) (now : Int) : lruCache :=
  let c1 := evictExpired c now
  evictOverBudget c1.list.length c1

/-- SetWithExpiration.  nil value deletes; expiration > 0 records an absolute
expiry, otherwise the key's expiry is erased; an existing key is updated in
place (usedBytes adjusted by the size delta, moved to back, NO evict); a new
key is appended and evict runs. -/
def lruSetWithExpiration (c : lruCache) (now : Int) (key : String)
    (value : Option GoValue) (expiration : Int) : lruCache :=
  match value with
  | none => (lruDelete c key).2
  | some v =>
    let c :=
      if expiration > 0 then { c with expires := mapSet c.expires key (now + expiration) }
      else { c with expires := mapDelete c.expires key }
    match listFind c.list key with
    | some old =>
      { c with usedBytes := c.usedBytes + ((v.len : Int) - (old.value.len : Int)),
               list := moveToBack (updateValue c.list key v) key }
    | none =>
      lruEvict
        { c with list := c.list ++ [⟨key, v⟩],
                 usedBytes := c.usedBytes + entrySize key v }
        now

/-- Set is SetWithExpiration with ttl 0. -/
def lruSet (c : lruCache) (now : Int) (key : String) (value : Option GoValue) : lruCache :=
  lruSetWithExpiration c now key value 0

/-- Get: miss if absent; an entry with a past expiry is reported missing and
deleted (the code fires go c.Delete(key); the model lets it complete);
otherwise the value is returned and the entry moved to back. -/
def lruGet (c : lruCache) (now : Int) (key : String) : Option GoValue × Bool × lruCache :=
  match listFind c.list key with
  | none => (none, false, c)
  | some e =>
    match mapLookup c.expires key with
    | some exp =>
      if now > exp then (none, false, (lruDelete c key).2)
      else (some e.value, true, { c with list := moveToBack c.list key })
    | none => (some e.value, true, { c with list := moveToBack c.list key })

/-- Close: Stop the ticker then close(closeCh); closing an already closed
channel is a Go runtime panic, modelled as an error value. -/
def lruClose (c : lruCache) : Except String lruCache :=
  if c.tickerPresent then
    if c.closeChClosed then Except.error "close of closed channel"
    else Except.ok { c with closeChClosed := true }
  else Except.ok c

/-- Well-formedness the Go items map enforces: list keys are distinct and
usedBytes equals the summed entry sizes. -/
def lruWF (c : lruCache) : Prop :=
  (c.list.map (fun e => e.key)).Nodup ∧ c.usedBytes = listBytes c.list

/-! ## The sharded LRU-2 store (store/lru2.go) -/

/-- Fixed-size slot store: Go slices of fixed capacity are modelled as lists
updated in place; lset is a no-op out of bounds (Go would panic there, and
every theorem that relies on an index supplies a bound hypothesis). -/
def lset {α : Type} : List α → Nat → α → List α
  | [], _, _ => []
  | _ :: t, 0, v => v :: t
  | x :: t, i + 1, v => x :: lset t i v

/-- Read a slot, defaulting out of bounds. -/
def lget {α : Type} [Inhabited α] (l : List α) (i : Nat) : α :=
  l.getD i default

/-- A pre-allocated node of the intrusive list: expireAt 0 marks a deleted
slot (the in-code convention). value is Option because Go stores a nil
interface in fresh slots. -/
structure Lru2Node where
  key : String
  value : Option GoValue
  expireAt : Int
deriving DecidableEq, Repr

instance : Inhabited Lru2Node := ⟨⟨"", none, 0⟩⟩

/-- Index of the pred field of a dlnk pair, as in the Go pred constant. -/
def predF : Nat := 0

/-- Index of the suc field of a dlnk pair, as in the Go suc constant. -/
def sucF : Nat := 1

/-- Read field f (pred or suc) of a dlnk pair. -/
def dget (p : Nat × Nat) (f : Nat) : Nat :=
  if f = predF then p.1 else p.2

/-- dlnk accessor dlnk[i][f]. -/
def dlnkGet (d : List (Nat × Nat)) (i f : Nat) : Nat :=
  dget (lget d i) f

/-- dlnk mutator dlnk[i][f] = v. -/
def dlnkSet (d : List (Nat × Nat)) (i f v : Nat) : List (Nat × Nat) :=
  let p := lget d i
  lset d i (if f = predF then (v, p.2) else (p.1, v))

/-- One level of a shard: dlnk[0] is the sentinel (dlnk[0][pred] = tail,
dlnk[0][suc] = head), m the slot array, hmap the key-to-1-based-slot map,
last the highest slot handed out. -/
structure Gcache where
  dlnk : List (Nat × Nat)
  m : List Lru2Node
  hmap : List (String × Nat)
  last : Nat
deriving DecidableEq, Repr

instance : Inhabited Gcache := ⟨⟨[], [], [], 0⟩⟩

/-- Create(cap): cap+1 dlnk slots, cap zeroed nodes, empty map. -/
def createCache (cap : Nat) : Gcache :=
  { dlnk := List.replicate (cap + 1) (0, 0),
    m := List.replicate cap default,
    hmap := [],
    last := 0 }

/-- adjust: if the node has a predecessor in direction p, unlink it and
relink it right after the sentinel in direction s, statement for statement
as in the Go code (index expressions re-read after earlier writes). -/
def cacheAdjust (c : Gcache) (idx p s : Nat) : Gcache :=
  if dlnkGet c.dlnk idx p ≠ 0 then
    let prev := dlnkGet c.dlnk idx p
    let next := dlnkGet c.dlnk idx s
    let d := dlnkSet c.dlnk next p prev
    let d := dlnkSet d prev s next
    let d := dlnkSet d idx p 0
    let d := dlnkSet d idx s (dlnkGet d 0 s)
    let d := dlnkSet d (dlnkGet d 0 s) p idx
    let d := dlnkSet d 0 s idx
    { c with dlnk := d }
  else c

/-- put: update in place if the key is mapped; otherwise replace the tail
slot when full (the replacement reads dlnk[0][pred] again AFTER adjust for
the new hmap index, exactly as the Go multiple assignment does), else claim
the next fresh slot and link it at the head.  Returns 1 for a new entry,
0 for an update; the eviction callback does not change cache state and is
not modelled. -/
def cachePut (c : Gcache) (key : String) (value : Option GoValue) (expireAt : Int) :
    Gcache × Nat :=
  match mapLookup c.hmap key with
  | some idx =>
    let n := lget c.m (idx - 1)
    let c1 := { c with m := lset c.m (idx - 1) { n with value := value, expireAt := expireAt } }
    (cacheAdjust c1 idx predF sucF, 0)
  | none =>
    if c.last = c.m.length then
      let t0 := dlnkGet c.dlnk 0 predF
      let tailKey := (lget c.m (t0 - 1)).key
      let c1 := { c with hmap := mapDelete c.hmap tailKey }
      let c2 := cacheAdjust c1 t0 predF sucF
      let newIdx := dlnkGet c2.dlnk 0 predF
      ({ c2 with m := lset c2.m (t0 - 1) ⟨key, value, expireAt⟩,
                 hmap := mapSet c2.hmap key newIdx }, 1)
    else
      let last1 := c.last + 1
      let d :=
        if c.hmap.length = 0 then dlnkSet c.dlnk 0 predF last1
        else dlnkSet c.dlnk (dlnkGet c.dlnk 0 sucF) predF last1
      let d1 := lset d last1 (0, dlnkGet d 0 sucF)
      let d2 := dlnkSet d1 0 sucF last1
      ({ c with dlnk := d2,
                m := lset c.m (last1 - 1) ⟨key, value, expireAt⟩,
                hmap := mapSet c.hmap key last1,
                last := last1 }, 1)

/-- get: on a mapped key, move it to the head and hand back its node
(read after the adjust, as the Go pointer does). -/
def cacheGet (c : Gcache) (key : String) : Option Lru2Node × Nat × Gcache :=
  match mapLookup c.hmap key with
  | some idx =>
    let c1 := cacheAdjust c idx predF sucF
    (some (lget c1.m (idx - 1)), 1, c1)
  | none => (none, 0, c)

/-- del: on a mapped, not-yet-deleted key, zero its expireAt, move the slot
to the tail, and return the node (value intact) together with the former
expireAt. -/
def cacheDel (c : Gcache) (key : String) : Option Lru2Node × Nat × Int × Gcache :=
  match mapLookup c.hmap key with
  | some idx =>
    let n := lget c.m (idx - 1)
    if n.expireAt > 0 then
      let c1 := { c with m := lset c.m (idx - 1) { n with expireAt := 0 } }
      let c2 := cacheAdjust c1 idx sucF predF
      (some (lget c2.m (idx - 1)), 1, n.expireAt, c2)
    else (none, 0, 0, c)
  | none => (none, 0, 0, c)

/-- walk: follow suc links from the head, stopping at the sentinel or at the
first slot whose expireAt is not positive (the Go walker returns there),
folding the live entries visited.  Fuel bounds the traversal. -/
def cacheWalkCount : Gcache → Nat → Nat → Nat
  | _, _, 0 => 0
  | c, idx, fuel + 1 =>
    if idx = 0 then 0
    else
      let n := lget c.m (idx - 1)
      if n.expireAt ≤ 0 then 0
      else 1 + cacheWalkCount c (dlnkGet c.dlnk idx sucF) fuel

/-- Number of entries the Go walk visits. -/
def cacheLen (c : Gcache) : Nat :=
  cacheWalkCount c (dlnkGet c.dlnk 0 sucF) (c.dlnk.length + 1)

/-- UTF-8 bytes of a string, the sequence Go's s[i] iterates over. -/
def strBytes (s : String) : List Nat :=
  (s.data.flatMap (fun c => String.utf8EncodeChar c)).map (fun b => b.toNat)

/-- BKDR hash: int32 arithmetic modelled by its 32-bit bit pattern
(hash*131 + byte, wrapping).  The Go value may be negative as an int32; the
pattern is what the subsequent & uses. -/
def hashBKRD (s : String) : Nat :=
  (strBytes s).foldl (fun h b => (h * 131 + b) % 4294967296) 0

/-- The or-shift cascade of maskOfNextPowOf2's general branch: fills every
bit below the highest set bit. -/
def maskSmear (c : Nat) : Nat :=
  let c1 := c ||| (c >>> 1)
  let c2 := c1 ||| (c1 >>> 2)
  let c3 := c2 ||| (c2 >>> 4)
  c3 ||| (c3 >>> 8)

/-- maskOfNextPowOf2 over uint16 (inputs below 2^16 stay below 2^16
throughout, so Nat operations coincide with Go's uint16 ones): an exact
power of two maps to itself minus one, anything else to the smear. -/
def maskOfNextPowOf2 (c : Nat) : Nat :=
  if 0 < c ∧ c &&& (c - 1) = 0 then c - 1
  else maskSmear c

/-- Forever = time.Duration(0x7FFFFFFFF) nanoseconds, the constant lru2's
Set passes as ttl (about 34 seconds, not an eternity). -/
def Forever : Int := 0x7FFFFFFFF

/-- lru2Store: caches[i] = (L1, L2) per shard; locks are irrelevant in the
sequential model; tickerStopped records Close's only effect. -/
structure lru2Store where
  caches : List (Gcache × Gcache)
  mask : Nat
  tickerStopped : Bool
deriving DecidableEq, Repr

/-- Default-filling of the constructor: 0 becomes 16 / 1024 / 1024. -/
def effOpt (x d : Nat) : Nat := if x = 0 then d else x

/-- newLRU2Cache: mask+1 shards, each with Create(capPerBucket) and
Create(level2Cap). -/
def newLRU2Store (bucketCount capPerBucket level2Cap : Nat) : lru2Store :=
  let mask := maskOfNextPowOf2 (effOpt bucketCount 16)
  { caches := List.replicate (mask + 1)
      (createCache (effOpt capPerBucket 1024), createCache (effOpt level2Cap 1024)),
    mask := mask,
    tickerStopped := false }

/-- Shard selection: hashBKRD(key) & mask on the 32-bit pattern (the AND of
a possibly negative int32 with the non-negative mask equals the AND of its
bit pattern with the mask). -/
def shardIdx (s : lru2Store) (key : String) : Nat :=
  hashBKRD key &&& s.mask

/-- Read a shard pair. -/
def getShard (s : lru2Store) (idx : Nat) : Gcache × Gcache :=
  lget s.caches idx

/-- Write a shard pair back. -/
def writeShard (s : lru2Store) (idx : Nat) (l1 l2 : Gcache) : lru2Store :=
  { s with caches := lset s.caches idx (l1, l2) }

/-- store delete on one shard: del in both levels; report whether either
level held a live entry. -/
def shardDelete (l1 l2 : Gcache) (key : String) : Bool × Gcache × Gcache :=
  let r1 := cacheDel l1 key
  let r2 := cacheDel l2 key
  (r1.2.1 > 0 ∨ r2.2.1 > 0, r1.2.2.2, r2.2.2.2)

/-- lru2Store.SetWithExpiration: expireAt = now + ttl when ttl > 0, else 0
(which the node convention reads as deleted); put into the shard's L1. -/
def lru2SetWithExpiration (s : lru2Store) (now : Int) (key : String)
    (value : Option GoValue) (expiration : Int) : lru2Store :=
  let expireAt := if expiration > 0 then now + expiration else 0
  let idx := shardIdx s key
  let pair := getShard s idx
  writeShard s idx (cachePut pair.1 key value expireAt).1 pair.2

/-- lru2Store.Set: ttl Forever. -/
def lru2Set (s : lru2Store) (now : Int) (key : String) (value : Option GoValue) : lru2Store :=
  lru2SetWithExpiration s now key value Forever

/-- lru2Store.Delete. -/
def lru2Delete (s : lru2Store) (key : String) : Bool × lru2Store :=
  let idx := shardIdx s key
  let pair := getShard s idx
  let r := shardDelete pair.1 pair.2 key
  (r.1, writeShard s idx r.2.1 r.2.2)

/-- The store-level get helper s.get(key, idx, 1): level read that filters
tombstones and expired entries. -/
def storeGetL2 (l2 : Gcache) (key : String) (now : Int) : Option Lru2Node × Nat × Gcache :=
  let r := cacheGet l2 key
  match r.1 with
  | some n =>
    if r.2.1 > 0 then
      if n.expireAt ≤ 0 ∨ now ≥ n.expireAt then (none, 0, r.2.2)
      else (some n, r.2.1, r.2.2)
    else (none, 0, r.2.2)
  | none => (none, 0, r.2.2)

/-- lru2Store.Get: del from L1 (a hit there is promoted to L2 unless its
recorded expiry has passed, in which case the key is fully deleted);
otherwise consult L2 through the filtering helper. -/
def lru2Get (s : lru2Store) (now : Int) (key : String) :
    Option GoValue × Bool × lru2Store :=
  let idx := shardIdx s key
  let pair := getShard s idx
  let r1 := cacheDel pair.1 key
  match r1.1 with
  | some n1 =>
    if r1.2.1 > 0 then
      if r1.2.2.1 > 0 ∧ now ≥ r1.2.2.1 then
        let rd := shardDelete r1.2.2.2 pair.2 key
        (none, false, writeShard s idx rd.2.1 rd.2.2)
      else
        let l2 := (cachePut pair.2 key n1.value r1.2.2.1).1
        (n1.value, true, writeShard s idx r1.2.2.2 l2)
    else (none, false, writeShard s idx r1.2.2.2 pair.2)
  | none =>
    let r2 := storeGetL2 pair.2 key now
    match r2.1 with
    | some n2 =>
      if r2.2.1 > 0 then
        if n2.expireAt > 0 ∧ now ≥ n2.expireAt then
          let rd := shardDelete r1.2.2.2 r2.2.2 key
          (none, false, writeShard s idx rd.2.1 rd.2.2)
        else (n2.value, true, writeShard s idx r1.2.2.2 r2.2.2)
      else (none, false, writeShard s idx r1.2.2.2 r2.2.2)
    | none => (none, false, writeShard s idx r1.2.2.2 r2.2.2)

/-- lru2Store.Close: only stops the ticker; calling it again is a no-op,
so lru2's Close is idempotent (unlike the single-list LRU's). -/
def lru2Close (s : lru2Store) : lru2Store :=
  { s with tickerStopped := true }

/-- A key is live at some level: mapped by hmap to a slot whose expireAt is
positive. -/
def liveIn (c : Gcache) (key : String) : Bool :=
  match mapLookup c.hmap key with
  | some idx => (lget c.m (idx - 1)).expireAt > 0
  | none => false

/-- Store Len as the walks count it. -/
def lru2Len (s : lru2Store) : Nat :=
  (s.caches.map (fun p => cacheLen p.1 + cacheLen p.2)).sum

/-! ## Single-flight (singleflight/singleflight.go)

Group.Do for one key, two concurrent callers, under an explicit interleaving
semantics.  Each program counter matches a line of Do: atLoad is the
g.m.Load check; atStore is c := new call, wg.Add(1), g.m.Store; atCall is
c.val, c.err = f() followed by wg.Done(); atDelete is g.m.Delete and the
return; waiting j is c.wg.Wait() on caller j's call.  sync.Map's Load,
Store and Delete are individually atomic, which is exactly the granularity
of these steps. -/

inductive SfPc where
  | atLoad
  | atStore
  | atCall
  | atDelete
  | waiting (j : Nat)
  | done
deriving DecidableEq, Repr

/-- Two-caller state: table is the sync.Map entry for the key (which
caller's call object is published), finI tells whether caller i's
WaitGroup latch has opened, fCount counts invocations of f. -/
structure SfState where
  table : Option Nat
  fin0 : Bool
  fin1 : Bool
  pc0 : SfPc
  pc1 : SfPc
  fCount : Nat
deriving DecidableEq, Repr

/-- Both callers about to execute g.m.Load, no call published. -/
def sfInit : SfState :=
  { table := none, fin0 := false, fin1 := false,
    pc0 := SfPc.atLoad, pc1 := SfPc.atLoad, fCount := 0 }

/-- Execute one atomic step of caller t (t is 0 or 1). -/
def sfStep (s : SfState) (t : Nat) : SfState :=
  let pc := if t = 0 then s.pc0 else s.pc1
  let withPc := fun (s' : SfState) (pc' : SfPc) =>
    if t = 0 then { s' with pc0 := pc' } else { s' with pc1 := pc' }
  match pc with
  | SfPc.atLoad =>
    match s.table with
    | some j => withPc s (SfPc.waiting j)
    | none => withPc s SfPc.atStore
  | SfPc.atStore => withPc { s with table := some t } SfPc.atCall
  | SfPc.atCall =>
    withPc { s with fCount := s.fCount + 1,
                    fin0 := if t = 0 then true else s.fin0,
                    fin1 := if t = 1 then true else s.fin1 } SfPc.atDelete
  | SfPc.atDelete => withPc { s with table := none } SfPc.done
  | SfPc.waiting j =>
    if (if j = 0 then s.fin0 else s.fin1) then withPc s SfPc.done else s
  | SfPc.done => s

/-- Run a schedule (list of caller ids). -/
def sfRun (sched : List Nat) : SfState :=
  sched.foldl sfStep sfInit

/-- The racing schedule: both callers pass the Load check before either
Stores, then each runs its own f to completion. -/
def sfRaceSchedule : List Nat := [0, 1, 0, 0, 0, 1, 1, 1]

/-! ## Consistent-hash ring (consistenthash, Map) -/

/-- Ring state.  hashFunc is config.HashFunc seen as the Nat bit pattern of
its uint32 result (Go converts it with int(...), always non-negative);
keys are the virtual-node positions, hashMap maps positions to node ids,
nodeReplicas and nodeCounts the per-node bookkeeping.  The rebalancer is a
background task and none of the settled claims involves it. -/
structure HashRing where
  hashFunc : String → Nat
  defaultReplicas : Nat
  keys : List Int
  hashMap : List (Int × String)
  nodeReplicas : List (String × Nat)
  nodeCounts : List (String × Int)
  totalRequests : Int

/-- Delete a string-keyed entry of nodeReplicas / nodeCounts. -/
def smapDelete {β : Type} (l : List (String × β)) (k : String) : List (String × β) :=
  l.filter (fun p => p.1 ≠ k)

/-- Write (replace) a string-keyed entry. -/
def smapSet {β : Type} (l : List (String × β)) (k : String) (v : β) : List (String × β) :=
  (k, v) :: smapDelete l k

/-- sort.Search: binary search for the smallest index in [0, n) satisfying
f, returning n when none does; the loop narrows [i, j) as the Go library
does, with fuel n (each iteration shrinks the interval). -/
def sortSearchAux (f : Nat → Bool) : Nat → Nat → Nat → Nat
  | 0, i, _ => i
  | fuel + 1, i, j =>
    if i < j then
      let h := (i + j) / 2
      if ! f h then sortSearchAux f fuel (h + 1) j
      else sortSearchAux f fuel i h
    else i

/-- sort.Search entry point. -/
def sortSearch (n : Nat) (f : Nat → Bool) : Nat :=
  sortSearchAux f n 0 n

/-- The routing computation of Map.Get: hash the key, binary-search keys
for the first position ≥ hash (wrapping to 0 past the end), and read the
node id off hashMap (Go's map read yields "" when absent). -/
def routeOf (m : HashRing) (key : String) : String :=
  if key = "" then ""
  else if m.keys.length = 0 then ""
  else
    let hash : Int := (m.hashFunc key : Int)
    let idx := sortSearch m.keys.length (fun i => decide (m.keys.getD i 0 ≥ hash))
    let idx := if idx = m.keys.length then 0 else idx
    (imapLookup m.hashMap (m.keys.getD idx 0)).getD ""

/-- Map.Get: route, then bump the chosen node's hit counter and the total;
the counter writes touch neither keys, hashMap nor hashFunc. -/
def ringGet (m : HashRing) (key : String) : String × HashRing :=
  if key = "" then ("", m)
  else if m.keys.length = 0 then ("", m)
  else
    let node := routeOf m key
    let count := ((m.nodeCounts.find? (fun p => p.1 = node)).map Prod.snd).getD 0
    (node,
     { m with nodeCounts := smapSet m.nodeCounts node (count + 1),
              totalRequests := m.totalRequests + 1 })

/-- The virtual-node label "%s-%d". -/
def virtualKey (node : String) (i : Nat) : String :=
  node ++ "-" ++ toString i

/-- Remove the first occurrence of a position from keys (the Go inner loop
breaks after the first match). -/
def removeFirstInt : List Int → Int → List Int
  | [], _ => []
  | x :: t, h => if x = h then t else x :: removeFirstInt t h

/-- One iteration of Map.Remove's loop: recompute the i-th virtual-point
hash, delete it from hashMap, and remove its first occurrence from keys. -/
def removeStep (hf : String → Nat) (node : String)
    (acc : List (Int × String) × List Int) (i : Nat) :
    List (Int × String) × List Int :=
  let hash : Int := (hf (virtualKey node i) : Int)
  (imapDelete acc.1 hash, removeFirstInt acc.2 hash)

/-- Map.Remove: errors on "" or an unknown node; otherwise deletes the
node's replica positions from hashMap and keys, then drops its counters. -/
def ringRemove (m : HashRing) (node : String) : Except String HashRing :=
  if node = "" then Except.error "invalid node"
  else
    let replicas := ((m.nodeReplicas.find? (fun p => p.1 = node)).map Prod.snd).getD 0
    if replicas = 0 then Except.error "node not found"
    else
      let acc := (List.range replicas).foldl (removeStep m.hashFunc node) (m.hashMap, m.keys)
      Except.ok
        { m with hashMap := acc.1, keys := acc.2,
                 nodeCounts := smapDelete m.nodeCounts node,
                 nodeReplicas := smapDelete m.nodeReplicas node }

/-- Integer-keyed association-list write (Go map assignment). -/
def imapSet {β : Type} (l : List (Int × β)) (k : Int) (v : β) : List (Int × β) :=
  (k, v) :: imapDelete l k

/-- addNode: append each replica position to keys and map it to the node,
then record the replica count. -/
def ringAddNode (m : HashRing) (node : String) (replicas : Nat) : HashRing :=
  let m1 := (List.range replicas).foldl
    (fun acc i =>
      let hash : Int := (acc.hashFunc (virtualKey node i) : Int)
      { acc with keys := acc.keys ++ [hash],
                 hashMap := imapSet acc.hashMap hash node })
    m
  { m1 with nodeReplicas := smapSet m1.nodeReplicas node replicas }

/-- Reachability invariant the ring maintains for a node: every hashMap
entry carrying the node sits at one of its current replica positions
hash(node-i), i below its recorded replica count.  Add establishes it (all
positions written are virtual keys below DefaultReplicas) and the
rebalancer only ever re-adds after a full Remove. -/
def RingInv (m : HashRing) (node : String) : Prop :=
  ∀ pr ∈ m.hashMap, pr.2 = node →
    ∃ i, i < ((m.nodeReplicas.find? (fun p => p.1 = node)).map Prod.snd).getD 0 ∧
      pr.1 = (m.hashFunc (virtualKey node i) : Int)

/-! ## Concrete instances used by the closed theorems and witnesses -/

/-- A 4-byte value. -/
def val4 : GoValue := ⟨1, 4⟩

/-- A 100-byte value. -/
def val100 : GoValue := ⟨2, 100⟩

/-- A 1-byte value. -/
def val1 : GoValue := ⟨3, 1⟩

/-- A 5-byte value. -/
def valA : GoValue := ⟨10, 5⟩

/-- Another 5-byte value, distinguishable from valA. -/
def valB : GoValue := ⟨11, 5⟩

/-- LRU store with a 1-byte budget after Set("k", val1): the fresh entry
(2 bytes) is immediately evicted by the budget loop. -/
def lruTight : lruCache :=
  lruSet (newLRUCache 1) 0 "k" (some val1)

/-- LRU store with a 10-byte budget after Set("k", val4) and then a
replacing Set("k", val100): the update path adjusts usedBytes but never
calls evict. -/
def lruOver : lruCache :=
  lruSet (lruSet (newLRUCache 10) 0 "k" (some val4)) 0 "k" (some val100)

/-- LRU store whose single entry "k" was written at instant 0 with ttl 5,
so it is expired at any instant after 5. -/
def lruExpired : lruCache :=
  lruSetWithExpiration (newLRUCache 0) 0 "k" (some valA) 5

/-- The LRU store right after its first Close. -/
def lruClosedOnce : lruCache :=
  { newLRUCache 0 with closeChClosed := true }

/-- A one-shard LRU-2 store, L1 and L2 capacity 4. -/
def lru2Fresh : lru2Store := newLRU2Store 1 4 4

/-- lru2Fresh after SetWithExpiration("k", valA, ttl 0) at instant 100:
the entry is stored with expireAt 0, the slot convention for deleted. -/
def lru2TtlZero : lru2Store :=
  lru2SetWithExpiration lru2Fresh 100 "k" (some valA) 0

/-- Set("k", valA), then Get("k") (promoting the entry to L2), then
Set("k", valB) (reviving the L1 tombstone): one key, live in both levels. -/
def lru2Both : lru2Store :=
  lru2Set (lru2Get (lru2Set lru2Fresh 100 "k" (some valA)) 100 "k").2.2 100 "k" (some valB)

/-- Last-entry decomposition used by the eviction argument: the list ends
with the freshly written entry and carries no other copy of its key. -/
def lruOursLast (l : List LruEntry) (k : String) (v : GoValue) : Prop :=
  ∃ l0, l = l0 ++ [⟨k, v⟩] ∧ listFind l0 k = none

/-- Witness ring: one node "n" with one replica whose position is the
length of the virtual label (hashFunc is String.length). -/
def ringW : HashRing :=
  { hashFunc := fun s => s.length, defaultReplicas := 1,
    keys := [3], hashMap := [((3 : Int), "n")],
    nodeReplicas := [("n", 1)], nodeCounts := [("n", 5)], totalRequests := 0 }

/-- ringW after Remove("n"). -/
def ringWRemoved : HashRing :=
  { ringW with hashMap := [], keys := [], nodeCounts := [], nodeReplicas := [] }

/-! ## Theorems settling the claims -/

/-- C1.  The claim says f is invoked exactly once for any n concurrent
callers of Do(k, f).  The code checks g.m.Load and then g.m.Store
separately (no LoadOrStore and no mutex), so two callers can both miss the
Load before either Stores: under the interleaving in sfRaceSchedule both
callers run to completion and f is invoked twice, contradicting the claim
and the function's own doc comment. -/
theorem singleflight_double_invocation :
    (sfRun sfRaceSchedule).fCount = 2 ∧
    (sfRun sfRaceSchedule).pc0 = SfPc.done ∧
    (sfRun sfRaceSchedule).pc1 = SfPc.done := by
  decide

/-- C3.  Replacing an existing key with a larger value takes the update
path of SetWithExpiration, which adjusts usedBytes by the size delta and
returns without calling evict: with maxBytes = 10, Set("k", 4 bytes) then
Set("k", 100 bytes) leaves usedBytes = 101 > 10, violating the budget
invariant the spec states for any Set/Delete sequence. -/
theorem lru_budget_violated_on_replace :
    lruOver.maxBytes = 10 ∧ lruOver.usedBytes = 101 := by
  decide

/-- C4.  The claim says ttl ≤ 0 means the entry never expires in both
stores.  In the LRU-2 store SetWithExpiration stores expireAt = 0 for
ttl ≤ 0, and 0 is the slot convention for a deleted entry: an immediate
Get (same instant, nothing evicted or deleted) already returns
(nil, false), so the entry is logically absent rather than immortal. -/
theorem lru2_ttl_zero_makes_entry_absent :
    (lru2Get lru2TtlZero 100 "k").1 = none ∧
    (lru2Get lru2TtlZero 100 "k").2.1 = false ∧
    liveIn (getShard lru2TtlZero (shardIdx lru2TtlZero "k")).1 "k" = false := by
  decide

/-- C5.  The claim says a key lives in at most one of L1/L2 per shard.
After Set("k"), Get("k") (which promotes the entry to L2 but leaves a
tombstone with the key still in L1's hmap), and a second Set("k") (whose
update path revives that tombstone), the key is live in both levels at
once, and the walk-based Len counts the single key twice. -/
theorem lru2_key_live_in_both_levels :
    liveIn (getShard lru2Both (shardIdx lru2Both "k")).1 "k" = true ∧
    liveIn (getShard lru2Both (shardIdx lru2Both "k")).2 "k" = true ∧
    lru2Len lru2Both = 2 := by
  decide

/-- C6.  The claim says Close is idempotent for both stores.  The LRU
Close runs close(c.closeCh) whenever the ticker pointer is non-nil, which
it always is, so a second Close closes an already-closed channel: a Go
runtime panic, not a safe no-op.  (The LRU-2 Close only stops the ticker
and really is idempotent, as the last conjunct shows.) -/
theorem lru_close_second_call_panics :
    lruClose (newLRUCache 0) = Except.ok lruClosedOnce ∧
    lruClose lruClosedOnce = Except.error "close of closed channel" ∧
    lru2Close (lru2Close lru2Fresh) = lru2Close lru2Fresh :=
  ⟨rfl, rfl, rfl⟩

/-- C2 counterexample.  The claim promises Set(k,v); Get(k) = (v, true)
for every key and non-nil value in either store.  With maxBytes = 1, the
fresh 2-byte entry ("k", 1-byte value) drives usedBytes over budget and
the eviction loop inside Set removes the entry itself, so the immediate
Get returns (nil, false). -/
theorem lru_set_get_counterexample :
    (lruGet lruTight 0 "k").1 = none ∧ (lruGet lruTight 0 "k").2.1 = false := by
  decide

/-- C9 counterexample.  The claim says Delete returns false for an entry
whose expiry has passed (logically absent).  The code only consults the
items map: with "k" written at instant 0 and ttl 5, the recorded expiry 5
is before the observation instant 10, yet Delete still returns true. -/
theorem lru_delete_expired_counterexample :
    mapLookup lruExpired.expires "k" = some 5 ∧ ((5 : Int) < 10) = True ∧
    (lruDelete lruExpired "k").1 = true := by
  decide

/-- Looking a key up after an integer-map delete: gone if it was the
deleted key, untouched otherwise. -/
theorem imapLookup_delete {β : Type} (l : List (Int × β)) (k p : Int) :
    imapLookup (imapDelete l k) p = if p = k then none else imapLookup l p := by
  induction l with
  | nil => by_cases hp : p = k <;> simp [imapDelete, imapLookup, hp]
  | cons hd t ih =>
    by_cases hk : hd.1 = k
    · rw [show imapDelete (hd :: t) k = imapDelete t k by simp [imapDelete, hk], ih]
      by_cases hp : p = k
      · simp [hp]
      · have hhd : ¬ hd.1 = p := by rw [hk]; omega
        simp [hp, imapLookup, hhd]
    · rw [show imapDelete (hd :: t) k = hd :: imapDelete t k by simp [imapDelete, hk]]
      by_cases hhd : hd.1 = p
      · have hp : ¬ p = k := by rw [← hhd]; exact fun hcon => hk (by omega)
        simp [imapLookup, hhd, hp]
      · simp [imapLookup, hhd, ih]

/-- A string-map delete leaves nothing behind under the deleted key. -/
theorem smapFind_delete_self {β : Type} (l : List (String × β)) (k : String) :
    ((smapDelete l k).find? (fun p => p.1 = k)).map Prod.snd = none := by
  induction l with
  | nil => simp [smapDelete]
  | cons hd t ih =>
    by_cases hk : hd.1 = k <;> simp_all [smapDelete, List.find?, hk]

/-- A successful integer-map lookup exhibits a member pair. -/
theorem imapLookup_mem {β : Type} (l : List (Int × β)) (p : Int) (v : β)
    (h : imapLookup l p = some v) : (p, v) ∈ l := by
  induction l with
  | nil => simp [imapLookup] at h
  | cons hd t ih =>
    rw [List.mem_cons]
    by_cases hk : hd.1 = p
    · simp [imapLookup, hk] at h
      left
      obtain ⟨h1, h2⟩ := hd
      simp_all
    · simp [imapLookup, hk] at h
      right
      exact ih h

/-- The remove loop only deletes: anything still found afterwards was
found before. -/
theorem removeLoop_lookup_some {hf : String → Nat} {node : String}
    (r : Nat) (acc : List (Int × String) × List Int) (p : Int) (v : String)
    (h : imapLookup ((List.range r).foldl (removeStep hf node) acc).1 p = some v) :
    imapLookup acc.1 p = some v := by
  induction r generalizing acc with
  | zero => simpa using h
  | succ n ih =>
    rw [List.range_succ, List.foldl_append] at h
    apply ih acc
    simp only [List.foldl_cons, List.foldl_nil] at h
    set X := (List.range n).foldl (removeStep hf node) acc with hX
    rw [show (removeStep hf node X n).1 = imapDelete X.1 ((hf (virtualKey node n) : Int)) from rfl,
        imapLookup_delete] at h
    split at h
    · exact absurd h (by simp)
    · exact h

/-- After the remove loop, every virtual-point hash below the replica
count is absent from hashMap. -/
theorem removeLoop_deleted {hf : String → Nat} {node : String}
    (r : Nat) (acc : List (Int × String) × List Int) (i : Nat) (hi : i < r) :
    imapLookup ((List.range r).foldl (removeStep hf node) acc).1
      ((hf (virtualKey node i) : Int)) = none := by
  induction r generalizing acc with
  | zero => omega
  | succ n ih =>
    rw [List.range_succ, List.foldl_append]
    simp only [List.foldl_cons, List.foldl_nil]
    set X := (List.range n).foldl (removeStep hf node) acc with hX
    rw [show (removeStep hf node X n).1 = imapDelete X.1 ((hf (virtualKey node n) : Int)) from rfl,
        imapLookup_delete]
    by_cases hin : i < n
    · split
      · rfl
      · exact ih acc hin
    · have hieq : i = n := by omega
      subst hieq
      simp

/-- C8.  On any ring state satisfying the reachability invariant (every
hashMap entry for the node sits at one of its recorded replica positions),
a successful Remove(node) leaves no position mapping to the node via
hashMap, and the node is gone from both nodeReplicas and nodeCounts. -/
theorem ring_remove_removes_node (m : HashRing) (node : String) (m2 : HashRing)
    (hInv : RingInv m node) (hok : ringRemove m node = Except.ok m2) :
    (∀ p ∈ m2.keys, imapLookup m2.hashMap p ≠ some node) ∧
    (m2.nodeReplicas.find? (fun pr => pr.1 = node)).map Prod.snd = none ∧
    (m2.nodeCounts.find? (fun pr => pr.1 = node)).map Prod.snd = none := by
  unfold ringRemove at hok
  by_cases hn : node = ""
  · simp [hn] at hok
  · rw [if_neg hn] at hok
    by_cases hz : ((m.nodeReplicas.find? (fun p => p.1 = node)).map Prod.snd).getD 0 = 0
    · rw [if_pos hz] at hok
      exact absurd hok (by simp)
    · rw [if_neg hz] at hok
      simp only [Except.ok.injEq] at hok
      subst hok
      refine ⟨?_, smapFind_delete_self _ _, smapFind_delete_self _ _⟩
      intro p hp hlook
      have h0 : imapLookup m.hashMap p = some node :=
        removeLoop_lookup_some _ (m.hashMap, m.keys) p node hlook
      obtain ⟨i, hi, hpi⟩ := hInv (p, node) (imapLookup_mem _ _ _ h0) rfl
      have habs := @removeLoop_deleted m.hashFunc node
        (((m.nodeReplicas.find? (fun pr => pr.1 = node)).map Prod.snd).getD 0)
        (m.hashMap, m.keys) i hi
      rw [← hpi] at habs
      rw [habs] at hlook
      exact absurd hlook (by simp)

/-- Witness for C8: the one-node ring ringW satisfies the invariant, its
Remove("n") succeeds, and the conclusions hold in the resulting state. -/
theorem ring_remove_removes_node_witness :
    (∀ p ∈ ringWRemoved.keys, imapLookup ringWRemoved.hashMap p ≠ some "n") ∧
    (ringWRemoved.nodeReplicas.find? (fun pr => pr.1 = "n")).map Prod.snd = none ∧
    (ringWRemoved.nodeCounts.find? (fun pr => pr.1 = "n")).map Prod.snd = none := by
  have hInv : RingInv ringW "n" := by
    intro pr hpr hnode
    have hpr2 : pr = ((3 : Int), "n") := by simpa [ringW] using hpr
    refine ⟨0, by simp [ringW], ?_⟩
    rw [hpr2]
    rfl
  exact ring_remove_removes_node ringW "n" ringWRemoved hInv rfl

/-- C7.  Two Map.Get calls with no intervening mutation return the same
node: the first call only rewrites nodeCounts and totalRequests, and the
routing computation reads only hashFunc, keys and hashMap, all untouched. -/
theorem ring_get_deterministic (m : HashRing) (key : String) :
    (ringGet (ringGet m key).2 key).1 = (ringGet m key).1 := by
  by_cases hk : key = ""
  · simp [ringGet, hk]
  · by_cases hlen : m.keys.length = 0
    · simp [ringGet, hk, hlen]
    · simp only [ringGet, hk, hlen, if_false, if_neg]
      simp [routeOf, hk, hlen]

/-- C9 (amended).  lruCache.Delete consults only the items map: it returns
true exactly when an entry for the key is resident, whether or not that
entry's expiry has passed. -/
theorem lru_delete_reports_residency (c : lruCache) (key : String) :
    (lruDelete c key).1 = true ↔ (listFind c.list key).isSome := by
  unfold lruDelete
  cases h : listFind c.list key <;> simp [h]

/-- Bit i of y or y-shifted-right-by-s is bit i or bit s+i of y. -/
theorem lor_shift_testBit (y s i : Nat) :
    (y ||| y >>> s).testBit i = (y.testBit i || y.testBit (s + i)) := by
  simp [Nat.testBit_lor, Nat.testBit_shiftRight]

/-- The or-shift cascade sees every bit up to 15 positions above. -/
theorem maskSmear_testBit_of (c i d : Nat) (hd : d < 16) (h : c.testBit (d + i) = true) :
    (maskSmear c).testBit i = true := by
  simp only [maskSmear, lor_shift_testBit]
  interval_cases d <;> simp_all <;> simp [← Nat.add_assoc] at * <;> simp_all

/-- The cascade never leaves the input's power-of-two range. -/
theorem maskSmear_lt (c n : Nat) (h : c < 2 ^ n) : maskSmear c < 2 ^ n := by
  have hsr : ∀ (x s : Nat), x < 2 ^ n → x >>> s < 2 ^ n := by
    intro x s hx
    calc x >>> s ≤ x := by
          simp only [Nat.shiftRight_eq_div_pow]
          exact Nat.div_le_self _ _
    _ < 2 ^ n := hx
  simp only [maskSmear]
  have h1 := Nat.or_lt_two_pow h (hsr _ 1 h)
  have h2 := Nat.or_lt_two_pow h1 (hsr _ 2 h1)
  have h3 := Nat.or_lt_two_pow h2 (hsr _ 4 h2)
  exact Nat.or_lt_two_pow h3 (hsr _ 8 h3)

/-- Doubling 2^(n-1) gives 2^n for positive n. -/
theorem two_mul_two_pow_pred (n : Nat) (hn : 0 < n) : 2 * 2 ^ (n - 1) = 2 ^ n := by
  rw [← pow_succ']
  congr 1
  omega

/-- The top bit of a positive number is set. -/
theorem testBit_top (c : Nat) (hc : 0 < c) : c.testBit (c.size - 1) = true := by
  have hs : 0 < c.size := Nat.size_pos.mpr hc
  have h1 : 2 ^ (c.size - 1) ≤ c := (@Nat.lt_size (c.size - 1) c).mp (by omega)
  have h2 : c < 2 ^ c.size := Nat.lt_size_self c
  have hdiv : c / 2 ^ (c.size - 1) = 1 := by
    refine Nat.div_eq_of_lt_le (by simpa using h1) ?_
    have := two_mul_two_pow_pred c.size hs
    omega
  simp [Nat.testBit_to_div_mod, hdiv]

/-- A positive number whose AND with its predecessor vanishes is an exact
power of two (the test maskOfNextPowOf2's first branch performs). -/
theorem pow_of_and_pred_zero (c : Nat) (hc : 0 < c) (h : c &&& (c - 1) = 0) :
    ∃ j, c = 2 ^ j := by
  have hs : 0 < c.size := Nat.size_pos.mpr hc
  have h1 : 2 ^ (c.size - 1) ≤ c := (@Nat.lt_size (c.size - 1) c).mp (by omega)
  have h2 : c < 2 ^ c.size := Nat.lt_size_self c
  refine ⟨c.size - 1, ?_⟩
  by_contra hne
  have hgt : 2 ^ (c.size - 1) < c := lt_of_le_of_ne h1 (fun he => hne he.symm)
  have hble : 2 ^ (c.size - 1) ≤ c - 1 := by omega
  have hdiv : (c - 1) / 2 ^ (c.size - 1) = 1 := by
    refine Nat.div_eq_of_lt_le (by simpa using hble) ?_
    have := two_mul_two_pow_pred c.size hs
    omega
  have hb1 : (c - 1).testBit (c.size - 1) = true := by
    simp [Nat.testBit_to_div_mod, hdiv]
  have hb2 : c.testBit (c.size - 1) = true := testBit_top c hc
  have hand : (c &&& (c - 1)).testBit (c.size - 1) = true := by
    simp [Nat.testBit_land, hb1, hb2]
  rw [h] at hand
  simp at hand

/-- The cascade of a sub-2^16 input is all-ones below its bit length. -/
theorem maskSmear_succ_pow (c : Nat) (hc : c < 65536) :
    ∃ j, maskSmear c + 1 = 2 ^ j := by
  by_cases hc0 : c = 0
  · exact ⟨0, by subst hc0; decide⟩
  · have hcpos : 0 < c := Nat.pos_of_ne_zero hc0
    have hs : 0 < c.size := Nat.size_pos.mpr hcpos
    have hsle : c.size ≤ 16 := Nat.size_le.mpr (by omega)
    have hlt : maskSmear c < 2 ^ c.size := maskSmear_lt c c.size (Nat.lt_size_self c)
    have heq : maskSmear c = 2 ^ c.size - 1 := by
      apply Nat.eq_of_testBit_eq
      intro i
      rw [Nat.testBit_two_pow_sub_one]
      by_cases hi : i < c.size
      · have hd : c.size - 1 - i < 16 := by omega
        have hidx : (c.size - 1 - i) + i = c.size - 1 := by omega
        have hb := maskSmear_testBit_of c i (c.size - 1 - i) hd
          (by rw [hidx]; exact testBit_top c hcpos)
        simp [hb, hi]
      · have hsmall : maskSmear c < 2 ^ i :=
          lt_of_lt_of_le hlt (Nat.pow_le_pow_right (by omega) (by omega))
        simp [Nat.testBit_eq_false_of_lt hsmall, hi]
    refine ⟨c.size, ?_⟩
    have : 0 < 2 ^ c.size := Nat.pos_pow_of_pos _ (by omega)
    omega

/-- Both branches of maskOfNextPowOf2 yield a power of two minus one for
any uint16 input. -/
theorem maskOfNextPowOf2_succ_pow (c : Nat) (hc : c < 65536) :
    ∃ j, maskOfNextPowOf2 c + 1 = 2 ^ j := by
  unfold maskOfNextPowOf2
  split
  case isTrue h =>
    obtain ⟨j, hj⟩ := pow_of_and_pred_zero c h.1 h.2
    exact ⟨j, by omega⟩
  case isFalse h => exact maskSmear_succ_pow c hc

/-- C10.  For any key and any uint16 BucketCount, the shard index
hashBKRD(key) & mask is at most mask, hence inside the caches array, whose
length is mask+1 and a power of two.  (hashBKRD is carried as its 32-bit
pattern: Go's & of the possibly negative int32 with the non-negative mask
computes exactly the pattern AND.) -/
theorem lru2_shard_index_in_bounds (key : String) (bc cp l2c : Nat) (hbc : bc < 65536) :
    shardIdx (newLRU2Store bc cp l2c) key < (newLRU2Store bc cp l2c).caches.length ∧
    (newLRU2Store bc cp l2c).caches.length = (newLRU2Store bc cp l2c).mask + 1 ∧
    ∃ j, (newLRU2Store bc cp l2c).caches.length = 2 ^ j := by
  have hlen : (newLRU2Store bc cp l2c).caches.length = maskOfNextPowOf2 (effOpt bc 16) + 1 := by
    simp [newLRU2Store]
  have hmask : (newLRU2Store bc cp l2c).mask = maskOfNextPowOf2 (effOpt bc 16) := rfl
  have hb : shardIdx (newLRU2Store bc cp l2c) key ≤ maskOfNextPowOf2 (effOpt bc 16) := by
    rw [show shardIdx (newLRU2Store bc cp l2c) key
        = hashBKRD key &&& maskOfNextPowOf2 (effOpt bc 16) from rfl]
    exact Nat.and_le_right
  have heff : effOpt bc 16 < 65536 := by
    unfold effOpt
    split <;> omega
  refine ⟨by omega, by omega, ?_⟩
  rw [hlen]
  exact maskOfNextPowOf2_succ_pow _ heff

/-- Witness for C10 at BucketCount 5 and key "abc". -/
theorem lru2_shard_index_in_bounds_witness :
    shardIdx (newLRU2Store 5 4 4) "abc" < (newLRU2Store 5 4 4).caches.length :=
  (lru2_shard_index_in_bounds "abc" 5 4 4 (by norm_num)).1

theorem listFind_key {l : List LruEntry} {k : String} {e : LruEntry}
    (h : listFind l k = some e) : e.key = k := by
  induction l with
  | nil => simp [listFind] at h
  | cons hd t ih =>
    by_cases hk : hd.key = k
    · simp [listFind, hk] at h
      rw [← h]
      exact hk
    · simp [listFind, hk] at h
      exact ih h

theorem listFind_append_none {l1 l2 : List LruEntry} {k : String}
    (h : listFind l1 k = none) : listFind (l1 ++ l2) k = listFind l2 k := by
  induction l1 with
  | nil => simp
  | cons hd t ih =>
    by_cases hk : hd.key = k
    · simp [listFind, hk] at h
    · simp [listFind, hk] at h ⊢
      exact ih h

theorem listFind_ours_last {l0 : List LruEntry} {k : String} {v : GoValue}
    (h : listFind l0 k = none) : listFind (l0 ++ [⟨k, v⟩]) k = some ⟨k, v⟩ := by
  rw [listFind_append_none h]
  simp [listFind]

theorem mapLookup_mapDelete_self {β : Type} (l : List (String × β)) (k : String) :
    mapLookup (mapDelete l k) k = none := by
  induction l with
  | nil => simp [mapDelete, mapLookup]
  | cons hd t ih =>
    by_cases hk : hd.1 = k <;> simp_all [mapDelete, mapLookup, hk]

theorem mapLookup_mapDelete_none {β : Type} {l : List (String × β)} {x : String}
    (y : String) (h : mapLookup l x = none) : mapLookup (mapDelete l y) x = none := by
  induction l with
  | nil => simp [mapDelete, mapLookup]
  | cons hd t ih =>
    by_cases hx : hd.1 = x
    · simp [mapLookup, hx] at h
    · by_cases hy : hd.1 = y <;> simp_all [mapDelete, mapLookup, hx, hy]

theorem mem_mapDelete_ne {β : Type} {l : List (String × β)} {k : String} {p : String × β}
    (h : p ∈ mapDelete l k) : p.1 ≠ k := by
  have := List.of_mem_filter h
  simpa using this

theorem removeFirstEntry_append_ne {l0 : List LruEntry} {k' : String} (e : LruEntry)
    (h : e.key ≠ k') : removeFirstEntry (l0 ++ [e]) k' = removeFirstEntry l0 k' ++ [e] := by
  induction l0 with
  | nil => simp [removeFirstEntry, h]
  | cons hd t ih =>
    by_cases hk : hd.key = k' <;> simp [removeFirstEntry, hk, ih]

theorem listFind_removeFirst_none {l : List LruEntry} {k k' : String}
    (h : listFind l k = none) : listFind (removeFirstEntry l k') k = none := by
  induction l with
  | nil => simp [removeFirstEntry, listFind]
  | cons hd t ih =>
    by_cases hhd : hd.key = k
    · simp [listFind, hhd] at h
    · simp [listFind, hhd] at h
      by_cases hk' : hd.key = k' <;> simp [removeFirstEntry, hk', listFind, hhd, ih h]
      exact h

theorem listBytes_removeFirst {l : List LruEntry} {k' : String} {e : LruEntry}
    (h : listFind l k' = some e) :
    listBytes (removeFirstEntry l k') = listBytes l - entrySize e.key e.value := by
  induction l with
  | nil => simp [listFind] at h
  | cons hd t ih =>
    by_cases hk : hd.key = k'
    · simp [listFind, hk] at h
      subst h
      rw [show removeFirstEntry (hd :: t) k' = t by simp [removeFirstEntry, hk]]
      simp only [listBytes, List.map_cons, List.sum_cons]
      ring
    · simp [listFind, hk] at h
      have ihh := ih h
      rw [show removeFirstEntry (hd :: t) k' = hd :: removeFirstEntry t k' by
        simp [removeFirstEntry, hk]]
      simp only [listBytes, List.map_cons, List.sum_cons] at *
      rw [ihh]
      ring

theorem listBytes_append (l1 l2 : List LruEntry) :
    listBytes (l1 ++ l2) = listBytes l1 + listBytes l2 := by
  simp [listBytes]

theorem listFind_eq_none_of_not_mem {l : List LruEntry} {k : String}
    (h : k ∉ l.map (fun e => e.key)) : listFind l k = none := by
  induction l with
  | nil => simp [listFind]
  | cons hd t ih =>
    simp only [List.map_cons, List.mem_cons, not_or] at h
    have hk : hd.key ≠ k := fun hc => h.1 hc.symm
    simp only [listFind, if_neg hk]
    exact ih h.2

theorem updateValue_keys (l : List LruEntry) (k : String) (v : GoValue) :
    (updateValue l k v).map (fun e => e.key) = l.map (fun e => e.key) := by
  induction l with
  | nil => simp [updateValue]
  | cons hd t ih =>
    by_cases hk : hd.key = k <;> simp [updateValue, hk, ih]

theorem listFind_updateValue {l : List LruEntry} {k : String} {v : GoValue} {old : LruEntry}
    (h : listFind l k = some old) :
    listFind (updateValue l k v) k = some ⟨k, v⟩ := by
  induction l with
  | nil => simp [listFind] at h
  | cons hd t ih =>
    by_cases hk : hd.key = k
    · rw [show updateValue (hd :: t) k v = { hd with value := v } :: t by
        simp [updateValue, hk]]
      simp [listFind, hk]
    · simp [listFind, hk] at h
      rw [show updateValue (hd :: t) k v = hd :: updateValue t k v by
        simp [updateValue, hk]]
      simp [listFind, hk]
      exact ih h

theorem listFind_removeFirst_self_nodup {l : List LruEntry} {k : String}
    (h : (l.map (fun e => e.key)).Nodup) : listFind (removeFirstEntry l k) k = none := by
  induction l with
  | nil => simp [removeFirstEntry, listFind]
  | cons hd t ih =>
    simp only [List.map_cons, List.nodup_cons] at h
    by_cases hk : hd.key = k
    · rw [show removeFirstEntry (hd :: t) k = t by simp [removeFirstEntry, hk]]
      apply listFind_eq_none_of_not_mem
      rw [← hk]
      intro hmem
      simp only [List.mem_map] at hmem
      obtain ⟨e, he, hke⟩ := hmem
      exact h.1 (hke ▸ List.mem_map_of_mem (fun x => x.key) he)
    · rw [show removeFirstEntry (hd :: t) k = hd :: removeFirstEntry t k by
        simp [removeFirstEntry, hk]]
      simp only [listFind, if_neg hk]
      exact ih h.2

theorem evictExpiredAux (now : Int) (k : String) (v : GoValue) :
    ∀ (exps : List (String × Int)) (s : lruCache),
      (∀ p ∈ exps, p.1 ≠ k) →
      lruOursLast s.list k v →
      s.usedBytes = listBytes s.list →
      mapLookup s.expires k = none →
      lruOursLast (exps.foldl
        (fun acc p =>
          if now > p.2 then
            match listFind acc.list p.1 with
            | some e => lruRemoveElement acc e
            | none => acc
          else acc) s).list k v ∧
      (exps.foldl
        (fun acc p =>
          if now > p.2 then
            match listFind acc.list p.1 with
            | some e => lruRemoveElement acc e
            | none => acc
          else acc) s).usedBytes = listBytes (exps.foldl
        (fun acc p =>
          if now > p.2 then
            match listFind acc.list p.1 with
            | some e => lruRemoveElement acc e
            | none => acc
          else acc) s).list ∧
      mapLookup (exps.foldl
        (fun acc p =>
          if now > p.2 then
            match listFind acc.list p.1 with
            | some e => lruRemoveElement acc e
            | none => acc
          else acc) s).expires k = none ∧
      (exps.foldl
        (fun acc p =>
          if now > p.2 then
            match listFind acc.list p.1 with
            | some e => lruRemoveElement acc e
            | none => acc
          else acc) s).maxBytes = s.maxBytes := by
  intro exps
  induction exps with
  | nil =>
    intro s _ h1 h2 h3
    exact ⟨h1, h2, h3, rfl⟩
  | cons p t ih =>
    intro s hne h1 h2 h3
    simp only [List.foldl_cons]
    have hpk : p.1 ≠ k := hne p (List.mem_cons_self p t)
    have hstep :
        ∀ s1 : lruCache, s1 =
          (if now > p.2 then
            match listFind s.list p.1 with
            | some e => lruRemoveElement s e
            | none => s
          else s) →
        lruOursLast s1.list k v ∧ s1.usedBytes = listBytes s1.list ∧
          mapLookup s1.expires k = none ∧ s1.maxBytes = s.maxBytes := by
      intro s1 hs1
      by_cases hnow : now > p.2
      · rw [if_pos hnow] at hs1
        cases hfind : listFind s.list p.1 with
        | none => rw [hfind] at hs1; subst hs1; exact ⟨h1, h2, h3, rfl⟩
        | some e =>
          rw [hfind] at hs1
          subst hs1
          have hek : e.key = p.1 := listFind_key hfind
          have heknk : e.key ≠ k := by rw [hek]; exact hpk
          obtain ⟨l0, hl, hn0⟩ := h1
          refine ⟨⟨removeFirstEntry l0 e.key, ?_, listFind_removeFirst_none hn0⟩, ?_, ?_, rfl⟩
          · show removeFirstEntry s.list e.key = removeFirstEntry l0 e.key ++ [⟨k, v⟩]
            rw [hl]
            exact removeFirstEntry_append_ne ⟨k, v⟩ (fun hc => heknk hc.symm) |>.symm ▸ rfl
          · show s.usedBytes - entrySize e.key e.value = listBytes (removeFirstEntry s.list e.key)
            rw [listBytes_removeFirst (hek ▸ hfind), h2]
          · exact mapLookup_mapDelete_none e.key h3
      · rw [if_neg hnow] at hs1
        subst hs1
        exact ⟨h1, h2, h3, rfl⟩
    obtain ⟨g1, g2, g3, g4⟩ := hstep _ rfl
    have htail : ∀ p' ∈ t, p'.1 ≠ k := fun p' hp' => hne p' (List.mem_cons_of_mem p hp')
    obtain ⟨r1, r2, r3, r4⟩ := ih _ htail g1 g2 g3
    exact ⟨r1, r2, r3, by rw [r4, g4]⟩

theorem evictOverBudgetAux (k : String) (v : GoValue) :
    ∀ (fuel : Nat) (s : lruCache),
      lruOursLast s.list k v →
      s.usedBytes = listBytes s.list →
      mapLookup s.expires k = none →
      (s.maxBytes ≤ 0 ∨ entrySize k v ≤ s.maxBytes) →
      lruOursLast (evictOverBudget fuel s).list k v ∧
        mapLookup (evictOverBudget fuel s).expires k = none := by
  intro fuel
  induction fuel with
  | zero =>
    intro s h1 _ h3 _
    exact ⟨h1, h3⟩
  | succ n ih =>
    intro s h1 h2 h3 hB
    rw [show evictOverBudget (n + 1) s =
      (if s.maxBytes > 0 ∧ s.usedBytes > s.maxBytes ∧ s.list ≠ [] then
        match s.list with
        | [] => s
        | e :: _ => evictOverBudget n (lruRemoveElement s e)
      else s) from rfl]
    by_cases hcond : s.maxBytes > 0 ∧ s.usedBytes > s.maxBytes ∧ s.list ≠ []
    · rw [if_pos hcond]
      obtain ⟨l0, hl, hn0⟩ := h1
      have hsize : entrySize k v ≤ s.maxBytes := by
        rcases hB with hB | hB
        · omega
        · exact hB
      cases l0 with
      | nil =>
        exfalso
        rw [hl] at h2
        simp [listBytes] at h2
        omega
      | cons e l0' =>
        rw [hl]
        have hek : e.key ≠ k := by
          intro hc
          rw [show listFind (e :: l0') k = some e by simp [listFind, hc]] at hn0
          exact absurd hn0 (by simp)
        have hn0' : listFind l0' k = none := by
          simpa [listFind, hek] using hn0
        have hrm : lruRemoveElement s e =
            { s with list := removeFirstEntry s.list e.key,
                     expires := mapDelete s.expires e.key,
                     usedBytes := s.usedBytes - entrySize e.key e.value } := rfl
        have hlist : removeFirstEntry s.list e.key = l0' ++ [⟨k, v⟩] := by
          rw [hl]
          simp [removeFirstEntry]
        apply ih
        · exact ⟨l0', by rw [hrm, hlist], hn0'⟩
        · show s.usedBytes - entrySize e.key e.value = listBytes (removeFirstEntry s.list e.key)
          rw [hlist, h2, hl]
          simp only [listBytes, List.map_cons, List.sum_cons, List.map_append, List.sum_append]
          ring
        · exact mapLookup_mapDelete_none e.key h3
        · exact hB
    · rw [if_neg hcond]
      exact ⟨h1, h3⟩

theorem lruGet_hit {c : lruCache} {now : Int} {k : String} {v : GoValue}
    (hfind : listFind c.list k = some ⟨k, v⟩) (hexp : mapLookup c.expires k = none) :
    (lruGet c now k).1 = some v ∧ (lruGet c now k).2.1 = true := by
  unfold lruGet
  rw [hfind, hexp]
  exact ⟨rfl, rfl⟩

theorem lru_set_get_ok (c : lruCache) (now : Int) (k : String) (v : GoValue)
    (hWF : lruWF c) (hB : c.maxBytes ≤ 0 ∨ entrySize k v ≤ c.maxBytes) :
    (lruGet (lruSet c now k (some v)) now k).1 = some v ∧
    (lruGet (lruSet c now k (some v)) now k).2.1 = true := by
  obtain ⟨hnd, hsum⟩ := hWF
  have hset : lruSet c now k (some v) =
      (let c' : lruCache := { c with expires := mapDelete c.expires k }
       match listFind c'.list k with
       | some old =>
         { c' with usedBytes := c'.usedBytes + ((v.len : Int) - (old.value.len : Int)),
                   list := moveToBack (updateValue c'.list k v) k }
       | none =>
         lruEvict
           { c' with list := c'.list ++ [⟨k, v⟩],
                     usedBytes := c'.usedBytes + entrySize k v }
           now) := by
    unfold lruSet lruSetWithExpiration
    norm_num
  rw [hset]
  cases hfind : listFind c.list k with
  | some old =>
    simp only [show listFind ({ c with expires := mapDelete c.expires k } : lruCache).list k
        = some old from hfind]
    apply lruGet_hit
    · show listFind (moveToBack (updateValue c.list k v) k) k = some ⟨k, v⟩
      have hfu : listFind (updateValue c.list k v) k = some ⟨k, v⟩ := listFind_updateValue hfind
      unfold moveToBack
      rw [hfu]
      have hndu : ((updateValue c.list k v).map (fun e => e.key)).Nodup := by
        rw [updateValue_keys]
        exact hnd
      exact listFind_ours_last (listFind_removeFirst_self_nodup hndu)
    · exact mapLookup_mapDelete_self c.expires k
  | none =>
    simp only [show listFind ({ c with expires := mapDelete c.expires k } : lruCache).list k
        = none from hfind]
    set c1 : lruCache :=
      { c with expires := mapDelete c.expires k,
               list := c.list ++ [⟨k, v⟩],
               usedBytes := c.usedBytes + entrySize k v } with hc1
    have hstart1 : lruOursLast c1.list k v := ⟨c.list, rfl, hfind⟩
    have hstart2 : c1.usedBytes = listBytes c1.list := by
      show c.usedBytes + entrySize k v = listBytes (c.list ++ [⟨k, v⟩])
      rw [listBytes_append, hsum]
      simp [listBytes]
    have hstart3 : mapLookup c1.expires k = none := mapLookup_mapDelete_self c.expires k
    have hne : ∀ p ∈ c1.expires, p.1 ≠ k := fun p hp => mem_mapDelete_ne hp
    have hE := evictExpiredAux now k v c1.expires c1 hne hstart1 hstart2 hstart3
    obtain ⟨e1, e2, e3, e4⟩ := hE
    have hBud : (evictExpired c1 now).maxBytes ≤ 0 ∨
        entrySize k v ≤ (evictExpired c1 now).maxBytes := by
      have he4 : (evictExpired c1 now).maxBytes = c1.maxBytes := e4
      rw [he4]
      exact hB
    have hO := evictOverBudgetAux k v (evictExpired c1 now).list.length (evictExpired c1 now)
      e1 e2 e3 hBud
    obtain ⟨⟨l0, hl, hn0⟩, o3⟩ := hO
    show (lruGet (lruEvict c1 now) now k).1 = some v ∧ (lruGet (lruEvict c1 now) now k).2.1 = true
    apply lruGet_hit
    · rw [show (lruEvict c1 now).list
        = (evictOverBudget (evictExpired c1 now).list.length (evictExpired c1 now)).list from rfl,
        hl]
      exact listFind_ours_last hn0
    · exact o3

theorem length_lset {α : Type} (l : List α) (i : Nat) (v : α) :
    (lset l i v).length = l.length := by
  induction l generalizing i with
  | nil => simp [lset]
  | cons hd t ih =>
    cases i with
    | zero => simp [lset]
    | succ n => simp [lset, ih]

theorem lget_lset_self {α : Type} [Inhabited α] {l : List α} {i : Nat} (v : α)
    (h : i < l.length) : lget (lset l i v) i = v := by
  induction l generalizing i with
  | nil => simp at h
  | cons hd t ih =>
    cases i with
    | zero => simp [lset, lget]
    | succ n =>
      simp [lset, lget] at *
      exact ih (by omega)

theorem cacheAdjust_m (c : Gcache) (idx p s : Nat) : (cacheAdjust c idx p s).m = c.m := by
  unfold cacheAdjust
  split <;> rfl

theorem cacheAdjust_hmap (c : Gcache) (idx p s : Nat) :
    (cacheAdjust c idx p s).hmap = c.hmap := by
  unfold cacheAdjust
  split <;> rfl

theorem mapLookup_mapSet_self {β : Type} (l : List (String × β)) (k : String) (v : β) :
    mapLookup (mapSet l k v) k = some v := by
  simp [mapSet, mapLookup]

theorem cachePut_update {c : Gcache} {k : String} {i : Nat}
    (val : Option GoValue) (E : Int)
    (h : mapLookup c.hmap k = some i) (h1 : 1 ≤ i) (h2 : i ≤ c.m.length) :
    mapLookup (cachePut c k val E).1.hmap k = some i ∧
    lget (cachePut c k val E).1.m (i - 1) = { lget c.m (i - 1) with value := val, expireAt := E } ∧
    (cachePut c k val E).1.m.length = c.m.length := by
  unfold cachePut
  rw [h]
  refine ⟨?_, ?_, ?_⟩
  · rw [cacheAdjust_hmap]
    exact h
  · rw [cacheAdjust_m]
    exact lget_lset_self _ (by omega)
  · rw [cacheAdjust_m]
    exact length_lset _ _ _

theorem cachePut_insert {c : Gcache} {k : String}
    (val : Option GoValue) (E : Int)
    (h : mapLookup c.hmap k = none) (hcap : c.last < c.m.length) :
    mapLookup (cachePut c k val E).1.hmap k = some (c.last + 1) ∧
    lget (cachePut c k val E).1.m c.last = ⟨k, val, E⟩ ∧
    (cachePut c k val E).1.m.length = c.m.length := by
  unfold cachePut
  rw [h]
  rw [if_neg (by omega)]
  refine ⟨mapLookup_mapSet_self _ _ _, ?_, length_lset _ _ _⟩
  show lget (lset c.m (c.last + 1 - 1) ⟨k, val, E⟩) (c.last) = ⟨k, val, E⟩
  rw [show c.last + 1 - 1 = c.last from rfl]
  exact lget_lset_self _ hcap

theorem cacheDel_hit {c : Gcache} {k : String} {i : Nat}
    (h : mapLookup c.hmap k = some i)
    (hpos : (lget c.m (i - 1)).expireAt > 0)
    (hlt : i - 1 < c.m.length) :
    (cacheDel c k).1 = some { lget c.m (i - 1) with expireAt := 0 } ∧
    (cacheDel c k).2.1 = 1 ∧
    (cacheDel c k).2.2.1 = (lget c.m (i - 1)).expireAt := by
  unfold cacheDel
  simp only [h]
  rw [if_pos hpos]
  refine ⟨?_, rfl, rfl⟩
  simp only [cacheAdjust_m]
  rw [lget_lset_self _ hlt]

theorem lru2Get_hit {s : lru2Store} {now : Int} {k : String} {n1 : Lru2Node} {e : Int}
    (h1 : (cacheDel (getShard s (shardIdx s k)).1 k).1 = some n1)
    (h2 : (cacheDel (getShard s (shardIdx s k)).1 k).2.1 = 1)
    (h3 : (cacheDel (getShard s (shardIdx s k)).1 k).2.2.1 = e)
    (hne : ¬(e > 0 ∧ now ≥ e)) :
    (lru2Get s now k).1 = n1.value ∧ (lru2Get s now k).2.1 = true := by
  unfold lru2Get
  simp only [h1, h2, h3]
  rw [if_neg hne]
  exact ⟨rfl, rfl⟩

theorem mapLookup_mem {β : Type} {l : List (String × β)} {k : String} {v : β}
    (h : mapLookup l k = some v) : (k, v) ∈ l := by
  induction l with
  | nil => simp [mapLookup] at h
  | cons hd t ih =>
    rw [List.mem_cons]
    by_cases hk : hd.1 = k
    · simp [mapLookup, hk] at h
      left
      obtain ⟨h1, h2⟩ := hd
      simp_all
    · simp [mapLookup, hk] at h
      right
      exact ih h

theorem lru2_set_get_ok (s : lru2Store) (now : Int) (k : String) (v : GoValue)
    (hnow : 0 ≤ now)
    (hlen : s.caches.length = s.mask + 1)
    (hcap : (getShard s (shardIdx s k)).1.last < (getShard s (shardIdx s k)).1.m.length ∨
            (mapLookup (getShard s (shardIdx s k)).1.hmap k).isSome = true)
    (hidx : ∀ pr ∈ (getShard s (shardIdx s k)).1.hmap,
            1 ≤ pr.2 ∧ pr.2 ≤ (getShard s (shardIdx s k)).1.m.length) :
    (lru2Get (lru2Set s now k (some v)) now k).1 = some v ∧
    (lru2Get (lru2Set s now k (some v)) now k).2.1 = true := by
  have hFor : (0 : Int) < Forever := by norm_num [Forever]
  have hE : (0 : Int) < now + Forever := by omega
  have hnge : ¬(now + Forever > 0 ∧ now ≥ now + Forever) := by omega
  have hidxlt : shardIdx s k < s.caches.length := by
    rw [hlen]
    have hand : hashBKRD k &&& s.mask ≤ s.mask := Nat.and_le_right
    show hashBKRD k &&& s.mask < s.mask + 1
    omega
  set idx := shardIdx s k with hidxdef
  set pair := getShard s idx with hpair
  set L1 : Gcache := (cachePut pair.1 k (some v) (now + Forever)).1 with hL1
  have hset : lru2Set s now k (some v) = writeShard s idx L1 pair.2 := by
    unfold lru2Set lru2SetWithExpiration
    rw [if_pos (by omega : Forever > 0)]
  have hidx2 : shardIdx (writeShard s idx L1 pair.2) k = idx := rfl
  have hshard : getShard (writeShard s idx L1 pair.2) idx = (L1, pair.2) := by
    show lget (lset s.caches idx (L1, pair.2)) idx = (L1, pair.2)
    exact lget_lset_self _ hidxlt
  have hmain : ∃ i, mapLookup L1.hmap k = some i ∧
      (lget L1.m (i - 1)).value = some v ∧
      (lget L1.m (i - 1)).expireAt = now + Forever ∧
      i - 1 < L1.m.length := by
    cases hfind : mapLookup pair.1.hmap k with
    | some i =>
      obtain ⟨hb1, hb2⟩ := hidx (k, i) (mapLookup_mem hfind)
      obtain ⟨p1, p2, p3⟩ := cachePut_update (some v) (now + Forever) hfind hb1 hb2
      rw [← hL1] at p1 p2 p3
      exact ⟨i, p1, by rw [p2], by rw [p2], by omega⟩
    | none =>
      have hcap2 : pair.1.last < pair.1.m.length := by
        rcases hcap with hc | hc
        · exact hc
        · rw [hfind] at hc
          simp at hc
      obtain ⟨p1, p2, p3⟩ := cachePut_insert (some v) (now + Forever) hfind hcap2
      rw [← hL1] at p1 p2 p3
      have hll : pair.1.last + 1 - 1 = pair.1.last := rfl
      refine ⟨pair.1.last + 1, p1, ?_, ?_, by omega⟩
      · rw [hll, p2]
      · rw [hll, p2]
  obtain ⟨i, q1, qv, qe, qlt⟩ := hmain
  have hpos : (lget L1.m (i - 1)).expireAt > 0 := by
    rw [qe]
    exact hE
  obtain ⟨d1, d2, d3⟩ := cacheDel_hit q1 hpos qlt
  rw [hset]
  have hres := @lru2Get_hit (writeShard s idx L1 pair.2) now k
    { lget L1.m (i - 1) with expireAt := 0 } ((lget L1.m (i - 1)).expireAt)
    (by rw [hidx2, hshard]; exact d1)
    (by rw [hidx2, hshard]; exact d2)
    (by rw [hidx2, hshard]; exact d3)
    (by rw [qe]; exact hnge)
  refine ⟨?_, hres.2⟩
  rw [hres.1]
  show (lget L1.m (i - 1)).value = some v
  exact qv

/-- C2 (amended).  Set(k,v); Get(k) = (v, true) immediately, under the
provisos the counterexample forces: for the LRU store the pair must fit
the byte budget (maxBytes ≤ 0 or len(k)+v.Len() ≤ maxBytes), else the
eviction loop inside Set removes the fresh entry; for the LRU-2 store the
key's shard L1 must have a free slot or already hold the key, else the
full-cache replacement path records the wrong slot index in hmap (it reads
dlnk[0][pred] after adjust has already moved the tail) and Get returns a
different entry's value.  The LRU case also assumes the store's items-map
well-formedness lruWF, the LRU-2 case the constructor's shape facts
(caches length mask+1, hmap indices within the slot array) and 0 ≤ now. -/
theorem set_get_roundtrip_amended :
    (∀ (c : lruCache) (now : Int) (k : String) (v : GoValue),
        lruWF c → (c.maxBytes ≤ 0 ∨ entrySize k v ≤ c.maxBytes) →
        (lruGet (lruSet c now k (some v)) now k).1 = some v ∧
        (lruGet (lruSet c now k (some v)) now k).2.1 = true) ∧
    (∀ (s : lru2Store) (now : Int) (k : String) (v : GoValue),
        0 ≤ now → s.caches.length = s.mask + 1 →
        ((getShard s (shardIdx s k)).1.last < (getShard s (shardIdx s k)).1.m.length ∨
          (mapLookup (getShard s (shardIdx s k)).1.hmap k).isSome = true) →
        (∀ pr ∈ (getShard s (shardIdx s k)).1.hmap,
          1 ≤ pr.2 ∧ pr.2 ≤ (getShard s (shardIdx s k)).1.m.length) →
        (lru2Get (lru2Set s now k (some v)) now k).1 = some v ∧
        (lru2Get (lru2Set s now k (some v)) now k).2.1 = true) :=
  ⟨lru_set_get_ok, lru2_set_get_ok⟩

/-- Witness for C2: both round-trips at a concrete unbounded LRU store and
a fresh one-shard LRU-2 store. -/
theorem set_get_roundtrip_amended_witness :
    (lruGet (lruSet (newLRUCache 0) 0 "k" (some valA)) 0 "k").1 = some valA ∧
    (lru2Get (lru2Set lru2Fresh 0 "k" (some valA)) 0 "k").1 = some valA :=
  ⟨(set_get_roundtrip_amended.1 (newLRUCache 0) 0 "k" valA
      (by unfold lruWF; exact ⟨by decide, by decide⟩) (Or.inl (by decide))).1,
   (set_get_roundtrip_amended.2 lru2Fresh 0 "k" valA (by decide) (by decide)
      (Or.inl (by decide)) (by decide)).1⟩
